import Mathlib

/-!
Verification of the cement-plant data uploader (`data-uploader.py`).

We shallowly embed the core of `CementPlantDataUploader`:
Python dicts become association lists with replace-or-append update
(`setKey`), Python scalar values become the `Value` type (NaN/None is the
distinguished `nan`, ints `intV`, floats `floatV` over `ℚ`, strings
`strV`), and the Firebase store becomes an explicit `StoreState`.
Exceptions raised and caught by the Python `try`/`except` blocks are
modelled with `Except` bodies plus explicit fault flags.
-/

namespace Cement

/-- A Python scalar value as it occurs in the uploader's records.
`nan` stands for a missing/NaN value (exactly the values on which
`pd.isna` is true); `floatV` carries the rational value of a non-NaN
float; `strV` covers text (and the text form `str(value)` produces). -/
inductive Value where
  | nan
  | intV (n : Int)
  | floatV (q : ℚ)
  | strV (s : String)
deriving DecidableEq

/-- A Python dict keyed by strings: an association list in insertion
order (Python dicts preserve insertion order and have unique keys). -/
abbrev Record := List (String × Value)

/-- Dict lookup: first binding of the key (dicts have unique keys, so
this is the binding). -/
def getVal : Record → String → Option Value
  | [], _ => none
  | (k', v) :: r, k => if k' = k then some v else getVal r k

/-- Dict assignment `r[k] = v`: replace the binding in place if the key
exists, else append (Python dicts keep the original position on
reassignment and append new keys at the end). -/
def setKey : Record → String → Value → Record
  | [], k, v => [(k, v)]
  | (k', v') :: r, k, v => if k' = k then (k, v) :: r else (k', v') :: setKey r k v

/-- Python's `str.lower()` on a key (character-wise lowercasing; field
names here are ASCII). -/
def lowerStr (s : String) : String := String.mk (s.data.map Char.toLower)

/-- The test `key.lower() in ['time', 'timestamp']` from
`clean_data_record`. -/
def isTimeKey (k : String) : Bool := lowerStr k == "time" || lowerStr k == "timestamp"

/-- The value transformation of `clean_data_record`'s loop body:
`0.0` if `pd.isna(value)`, `float(value)` if the value is an int or
float, `str(value)` otherwise. -/
def cleanValue : Value → Value
  | .nan => .floatV 0
  | .intV n => .floatV (n : ℚ)
  | .floatV q => .floatV q
  | .strV s => .strV s

/-- The loop of `clean_data_record`: skip time-like keys, clean every
other value, preserving dict order. -/
def cleanBase (record : Record) : Record :=
  (record.filter fun p => !(isTimeKey p.1)).map fun p => (p.1, cleanValue p.2)

/-- `clean_data_record(record)` (data-uploader.py lines 88-109): clean
every non-time-like field, then assign
`cleaned_record['timestamp'] = datetime.now().isoformat()` and
`cleaned_record['upload_time'] = int(time.time() * 1000)`.
The two clock readings are passed in as `isoNow` and `millisNow`. -/
def clean_data_record (record : Record) (isoNow : String) (millisNow : Int) : Record :=
  setKey (setKey (cleanBase record) "timestamp" (.strV isoNow)) "upload_time" (.intV millisNow)

theorem getVal_setKey_self (r : Record) (k : String) (v : Value) :
    getVal (setKey r k v) k = some v := by
  induction r with
  | nil => simp [setKey, getVal]
  | cons p r ih =>
    by_cases h : p.1 = k
    · simp [setKey, h, getVal]
    · simp [setKey, h, getVal, ih]

theorem getVal_setKey_ne (r : Record) (k k' : String) (v : Value) (h : k' ≠ k) :
    getVal (setKey r k v) k' = getVal r k' := by
  induction r with
  | nil => simp [setKey, getVal, Ne.symm h]
  | cons p r ih =>
    obtain ⟨k₁, v₁⟩ := p
    by_cases hp : k₁ = k
    · have hk' : ¬k = k' := fun hc => h hc.symm
      simp [setKey, hp, getVal, hk']
    · simp [setKey, hp, getVal, ih]

theorem mem_setKey (r : Record) (k : String) (v : Value) (p : String × Value)
    (h : p ∈ setKey r k v) : p = (k, v) ∨ p ∈ r := by
  induction r with
  | nil => simpa [setKey] using h
  | cons q r ih =>
    by_cases hq : q.1 = k
    · simp only [setKey, hq, if_pos rfl] at h
      rcases List.mem_cons.mp h with h | h
      · exact Or.inl h
      · exact Or.inr (List.mem_cons_of_mem _ h)
    · simp only [setKey, if_neg hq] at h
      rcases List.mem_cons.mp h with h | h
      · exact Or.inr (h ▸ List.mem_cons_self _ _)
      · rcases ih h with h | h
        · exact Or.inl h
        · exact Or.inr (List.mem_cons_of_mem _ h)

theorem getVal_eq_none_iff (r : Record) (k : String) :
    getVal r k = none ↔ ∀ p ∈ r, p.1 ≠ k := by
  induction r with
  | nil => simp [getVal]
  | cons p r ih =>
    by_cases h : p.1 = k
    · simp [getVal, h]
    · simp [getVal, h, ih]

theorem getVal_cleanBase_some (record : Record) (k : String) (v : Value)
    (hget : getVal record k = some v) (htime : isTimeKey k = false) :
    getVal (cleanBase record) k = some (cleanValue v) := by
  induction record with
  | nil => simp [getVal] at hget
  | cons p r ih =>
    by_cases h : p.1 = k
    · simp only [getVal, if_pos h] at hget
      cases hget
      simp [cleanBase, List.filter_cons, h, htime, getVal]
    · simp only [getVal, if_neg h] at hget
      by_cases ht : isTimeKey p.1
      · simpa [cleanBase, List.filter_cons, ht] using ih hget
      · simpa [cleanBase, List.filter_cons, ht, getVal, h] using ih hget

theorem getVal_cleanBase_none (record : Record) (k : String)
    (hget : getVal record k = none) :
    getVal (cleanBase record) k = none := by
  rw [getVal_eq_none_iff] at hget ⊢
  intro p hp
  simp only [cleanBase, List.mem_map, List.mem_filter] at hp
  obtain ⟨q, ⟨hq, -⟩, rfl⟩ := hp
  exact hget q hq

theorem getVal_cleanBase_inv (record : Record) (k : String) (v : Value)
    (hget : getVal (cleanBase record) k = some v) :
    isTimeKey k = false ∧ ∃ w, getVal record k = some w ∧ v = cleanValue w := by
  induction record with
  | nil => simp [cleanBase, getVal] at hget
  | cons p r ih =>
    by_cases ht : isTimeKey p.1
    · simp only [cleanBase, List.filter_cons, ht] at hget
      by_cases h : p.1 = k
      · rcases ih (by simpa [cleanBase] using hget) with ⟨htk, w, hw, hv⟩
        exact absurd (h ▸ ht) (by simp [htk])
      · rcases ih (by simpa [cleanBase] using hget) with ⟨htk, w, hw, hv⟩
        exact ⟨htk, w, by simpa [getVal, h] using hw, hv⟩
    · simp only [cleanBase, List.filter_cons, ht] at hget
      by_cases h : p.1 = k
      · simp only [List.map_cons, getVal, if_pos h] at hget
        cases hget
        exact ⟨h ▸ (by simpa using ht), p.2, by simp [getVal, h], rfl⟩
      · exact
          let ⟨htk, w, hw, hv⟩ := ih (by simpa [cleanBase, getVal, h] using hget)
          ⟨htk, w, by simpa [getVal, h] using hw, hv⟩

theorem cleanValue_idem (v : Value) : cleanValue (cleanValue v) = cleanValue v := by
  cases v <;> rfl

theorem cleanValue_ne_nan (v : Value) : cleanValue v ≠ .nan := by
  cases v <;> simp [cleanValue]

theorem isTimeKey_timestamp : isTimeKey "timestamp" = true := by decide

theorem getVal_clean_of_ne (record : Record) (isoNow : String) (millisNow : Int)
    (k : String) (hts : k ≠ "timestamp") (hut : k ≠ "upload_time") :
    getVal (clean_data_record record isoNow millisNow) k = getVal (cleanBase record) k := by
  rw [clean_data_record, getVal_setKey_ne _ _ _ _ hut, getVal_setKey_ne _ _ _ _ hts]

theorem mem_cleanBase_not_time (record : Record) (p : String × Value)
    (h : p ∈ cleanBase record) : isTimeKey p.1 = false := by
  simp only [cleanBase, List.mem_map, List.mem_filter] at h
  obtain ⟨q, ⟨-, hq⟩, rfl⟩ := h
  simpa using hq

theorem mem_cleanBase_value (record : Record) (p : String × Value)
    (h : p ∈ cleanBase record) : ∃ w, p.2 = cleanValue w := by
  simp only [cleanBase, List.mem_map, List.mem_filter] at h
  obtain ⟨q, -, rfl⟩ := h
  exact ⟨q.2, rfl⟩

/-- The history store as Firebase returns it from `history_ref.get()`:
push keys mapped to stored records, enumerated in the store's key
order (push keys are chronological, so enumeration order is append
order). -/
abbrev HistoryStore := List (String × Record)

/-- The sort key of `cleanup_history`:
`history_data[x].get('upload_time', 0)` — the stored `upload_time`
value, or `0` when the field is absent. -/
def uploadTimeOf (r : Record) : Int :=
  match getVal r "upload_time" with
  | some (.intV n) => n
  | _ => 0

/-- A stored entry is well formed when its `upload_time` field is
either absent or an integer — true of everything this uploader appends;
on such stores the embedded sort below agrees with Python's `sorted`. -/
def wfEntry (r : Record) : Bool :=
  match getVal r "upload_time" with
  | none => true
  | some (.intV _) => true
  | _ => false

/-- The comparison underlying
`sorted(history_data.keys(), key=lambda x: history_data[x].get('upload_time', 0))`
(Python's `sorted` is stable and ascending, as is `List.mergeSort`). -/
def entryLE (a b : String × Record) : Bool := decide (uploadTimeOf a.2 ≤ uploadTimeOf b.2)

/-- `sorted_keys` from `cleanup_history`: all store keys, ascending by
stored `upload_time`, ties in enumeration order (stable sort). -/
def sorted_keys (h : HistoryStore) : List String := (h.mergeSort entryLE).map Prod.fst

/-- `keys_to_delete = sorted_keys[:-1000]`: all but the last 1000 of the
ascending key list (the `count - 1000` oldest). -/
def keys_to_delete (h : HistoryStore) : List String := (sorted_keys h).take (h.length - 1000)

/-- The effect of the deletion loop `history_ref.child(key).delete()`
over a key list: the store keeps exactly the entries whose key is not
deleted, in unchanged enumeration order. -/
def deleteKeys (h : HistoryStore) (ks : List String) : HistoryStore :=
  h.filter fun p => !(ks.contains p.1)

/-- `cleanup_history` (data-uploader.py lines 129-151): if more than
1000 records are stored, delete the `count - 1000` oldest by
`upload_time`; otherwise do nothing. -/
def cleanup_history (h : HistoryStore) : HistoryStore :=
  if h.length > 1000 then deleteKeys h (keys_to_delete h) else h

theorem entryLE_trans (a b c : String × Record) :
    entryLE a b → entryLE b c → entryLE a c := by
  simp only [entryLE, decide_eq_true_eq]
  omega

theorem entryLE_total (a b : String × Record) : entryLE a b || entryLE b a := by
  simp only [entryLE, Bool.or_eq_true, decide_eq_true_eq]
  omega

theorem key_inj {α β : Type} {l : List (α × β)} (hnd : (l.map Prod.fst).Nodup)
    {p q : α × β} (hp : p ∈ l) (hq : q ∈ l) (hk : p.1 = q.1) : p = q := by
  induction l with
  | nil => cases hp
  | cons a l ih =>
    rw [List.map_cons, List.nodup_cons] at hnd
    rcases List.mem_cons.mp hp with rfl | hp' <;> rcases List.mem_cons.mp hq with rfl | hq'
    · rfl
    · exact absurd (hk ▸ List.mem_map_of_mem Prod.fst hq') hnd.1
    · exact absurd (hk ▸ List.mem_map_of_mem Prod.fst hp') hnd.1
    · exact ih hnd.2 hp' hq'

theorem pair_sublist_get {α : Type} (l : List α) (i j : Nat) (hi : i < l.length)
    (hj : j < l.length) (hij : i < j) : List.Sublist [l.get ⟨i, hi⟩, l.get ⟨j, hj⟩] l := by
  have h1 : l.get ⟨i, hi⟩ ∈ l.take (i + 1) := by
    rw [List.mem_iff_getElem?]
    refine ⟨i, ?_⟩
    rw [List.getElem?_take_of_lt (Nat.lt_succ_self i), List.getElem?_eq_getElem hi]
    simp
  have h2 : l.get ⟨j, hj⟩ ∈ l.drop (i + 1) := by
    have hdj : List.Sublist (l.drop j) (l.drop (i + 1)) := List.drop_sublist_drop_left l hij
    have hcons : l.drop j = l.get ⟨j, hj⟩ :: l.drop (j + 1) := by
      rw [List.drop_eq_getElem_cons hj]
      simp
    exact hdj.subset (hcons ▸ List.mem_cons_self _ _)
  have hsub : List.Sublist ([l.get ⟨i, hi⟩] ++ [l.get ⟨j, hj⟩]) (l.take (i + 1) ++ l.drop (i + 1)) :=
    List.Sublist.append (List.singleton_sublist.mpr h1) (List.singleton_sublist.mpr h2)
  simpa [List.take_append_drop] using hsub

theorem length_filter_not {α : Type} (l : List α) (p : α → Bool) :
    (l.filter fun a => !(p a)).length = l.length - (l.filter p).length := by
  induction l with
  | nil => rfl
  | cons a l ih =>
    have hle := List.length_filter_le p l
    by_cases h : p a
    · simp [List.filter_cons, h, ih]
    · simp [List.filter_cons, h, ih]
      omega

/-- C1: the retention invariant of `cleanup_history` with its hardcoded
cap of 1000.  For every well-formed history store with distinct keys:
the stored count afterwards is `min count 1000`; when the count is at
most 1000 nothing changes; survivors keep their enumeration order
(sublist); every deleted entry's `upload_time` is at most every
survivor's; and on equal `upload_time` the deleted entry occurs earlier
in the store's key enumeration order than any survivor — so the
survivors are exactly the 1000 entries largest under the
(`upload_time`, enumeration position) order. -/
theorem cleanup_history_retention (h : HistoryStore)
    (_hWF : (h.all fun p => wfEntry p.2) = true)
    (hnd : (h.map Prod.fst).Nodup) :
    (cleanup_history h).length = min h.length 1000 ∧
    (h.length ≤ 1000 → cleanup_history h = h) ∧
    List.Sublist (cleanup_history h) h ∧
    (∀ p ∈ h, p ∉ cleanup_history h → ∀ q ∈ cleanup_history h,
        uploadTimeOf p.2 ≤ uploadTimeOf q.2) ∧
    (∀ i j : Nat, ∀ hi : i < h.length, ∀ hj : j < h.length,
        h.get ⟨i, hi⟩ ∉ cleanup_history h → h.get ⟨j, hj⟩ ∈ cleanup_history h →
        uploadTimeOf (h.get ⟨i, hi⟩).2 = uploadTimeOf (h.get ⟨j, hj⟩).2 → i < j) := by
  by_cases hle : h.length ≤ 1000
  · have hcl : cleanup_history h = h := by
      rw [cleanup_history, if_neg (by omega)]
    refine ⟨by rw [hcl]; omega, fun _ => hcl, by rw [hcl], ?_, ?_⟩
    · intro p hp hpn
      rw [hcl] at hpn
      exact absurd hp hpn
    · intro i j hi hj hpn _ _
      rw [hcl] at hpn
      exact absurd (List.get_mem h i hi) hpn
  · have hgt : 1000 < h.length := Nat.lt_of_not_le hle
    have hcl : cleanup_history h = deleteKeys h (keys_to_delete h) := by
      rw [cleanup_history, if_pos (by omega)]
    set s : HistoryStore := h.mergeSort entryLE with hs
    set m : Nat := h.length - 1000 with hm
    have hperm : List.Perm s h := List.mergeSort_perm h entryLE
    have hslen : s.length = h.length := hperm.length_eq
    have hsknd : (s.map Prod.fst).Nodup := ((hperm.map Prod.fst).nodup_iff).mpr hnd
    have hhnd : h.Nodup := List.Nodup.of_map Prod.fst hnd
    have hsnd : s.Nodup := hperm.nodup_iff.mpr hhnd
    have hsplit : s.take m ++ s.drop m = s := List.take_append_drop m s
    have hknd2 : ((s.take m).map Prod.fst ++ (s.drop m).map Prod.fst).Nodup := by
      rw [← List.map_append, hsplit]
      exact hsknd
    have hdisj := (List.nodup_append.mp hknd2).2.2
    have hks_eq : keys_to_delete h = (s.take m).map Prod.fst := by
      rw [keys_to_delete, sorted_keys, List.map_take]
    have mem_result : ∀ p : String × Record,
        p ∈ cleanup_history h ↔ p ∈ h ∧ p.1 ∉ keys_to_delete h := by
      intro p
      rw [hcl]
      simp [deleteKeys, List.mem_filter]
    have mem_take_of_del : ∀ p ∈ h, p.1 ∈ keys_to_delete h → p ∈ s.take m := by
      intro p hp hpk
      rw [hks_eq] at hpk
      obtain ⟨q, hq, hqk⟩ := List.mem_map.mp hpk
      have hq' : q ∈ s := (List.take_sublist m s).subset hq
      have heq : q = p := key_inj hsknd hq' (hperm.mem_iff.mpr hp) hqk
      exact heq ▸ hq
    have mem_drop_of_keep : ∀ q ∈ h, q.1 ∉ keys_to_delete h → q ∈ s.drop m := by
      intro q hq hqk
      have hqs : q ∈ s := hperm.mem_iff.mpr hq
      rw [← hsplit] at hqs
      rcases List.mem_append.mp hqs with h1 | h1
      · refine absurd ?_ hqk
        rw [hks_eq]
        exact List.mem_map_of_mem Prod.fst h1
      · exact h1
    have hordered : ∀ a ∈ s.take m, ∀ b ∈ s.drop m, entryLE a b = true := by
      have hp : List.Pairwise (fun a b => entryLE a b = true) s := by
        have := List.sorted_mergeSort entryLE_trans entryLE_total h
        simpa using this
      rw [← hsplit] at hp
      exact fun a ha b hb => (List.pairwise_append.mp hp).2.2 a ha b hb
    have htknd : (s.take m).Nodup := (List.take_sublist m s).nodup hsnd
    have hfnd : (h.filter fun p => (keys_to_delete h).contains p.1).Nodup := hhnd.filter _
    have hmemiff : ∀ p : String × Record,
        p ∈ h.filter (fun p => (keys_to_delete h).contains p.1) ↔ p ∈ s.take m := by
      intro p
      constructor
      · intro hp
        rw [List.mem_filter] at hp
        exact mem_take_of_del p hp.1 (by simpa using hp.2)
      · intro hp
        have hp' : p ∈ s := (List.take_sublist m s).subset hp
        rw [List.mem_filter]
        refine ⟨hperm.mem_iff.mp hp', ?_⟩
        have : p.1 ∈ keys_to_delete h := by
          rw [hks_eq]
          exact List.mem_map_of_mem Prod.fst hp
        simpa using this
    have hpm : List.Perm (h.filter fun p => (keys_to_delete h).contains p.1) (s.take m) :=
      (List.perm_ext_iff_of_nodup hfnd htknd).mpr hmemiff
    have hflen : (h.filter fun p => (keys_to_delete h).contains p.1).length = m := by
      rw [hpm.length_eq, List.length_take]
      omega
    have hdklen : (deleteKeys h (keys_to_delete h)).length
        = h.length - (h.filter fun p => (keys_to_delete h).contains p.1).length :=
      length_filter_not h _
    have hlen1000 : (cleanup_history h).length = 1000 := by
      rw [hcl, hdklen, hflen]
      omega
    refine ⟨by rw [hlen1000]; omega, fun hcon => absurd hcon (by omega), ?_, ?_, ?_⟩
    · rw [hcl]
      exact List.filter_sublist h
    · intro p hp hpn q hq
      have hqm := (mem_result q).mp hq
      have hpk : p.1 ∈ keys_to_delete h := by
        by_contra hn
        exact hpn ((mem_result p).mpr ⟨hp, hn⟩)
      have hpt : p ∈ s.take m := mem_take_of_del p hp hpk
      have hqd : q ∈ s.drop m := mem_drop_of_keep q hqm.1 hqm.2
      have := hordered p hpt q hqd
      simpa [entryLE] using this
    · intro i j hi hj hpn hqin heq
      have hp : h.get ⟨i, hi⟩ ∈ h := List.get_mem h i hi
      have hqm := (mem_result (h.get ⟨j, hj⟩)).mp hqin
      have hpk : (h.get ⟨i, hi⟩).1 ∈ keys_to_delete h := by
        by_contra hn
        exact hpn ((mem_result _).mpr ⟨hp, hn⟩)
      have hpt : h.get ⟨i, hi⟩ ∈ s.take m := mem_take_of_del _ hp hpk
      have hqd : h.get ⟨j, hj⟩ ∈ s.drop m := mem_drop_of_keep _ hqm.1 hqm.2
      have hkne : (h.get ⟨i, hi⟩).1 ≠ (h.get ⟨j, hj⟩).1 := by
        intro hk
        exact hdisj (List.mem_map_of_mem Prod.fst hpt) (hk ▸ List.mem_map_of_mem Prod.fst hqd)
      have hij : i ≠ j := by
        intro hij
        subst hij
        exact hkne rfl
      by_contra hnot
      have hji : j < i := by omega
      have hpair : List.Sublist [h.get ⟨j, hj⟩, h.get ⟨i, hi⟩] h :=
        pair_sublist_get h j i hj hi hji
      have hpw : List.Pairwise (fun a b => entryLE a b = true)
          [h.get ⟨j, hj⟩, h.get ⟨i, hi⟩] := by
        refine List.pairwise_pair.mpr ?_
        simp only [entryLE, decide_eq_true_eq]
        exact le_of_eq heq.symm
      have hsubs : List.Sublist [h.get ⟨j, hj⟩, h.get ⟨i, hi⟩] s := by
        have := List.sublist_mergeSort entryLE_trans entryLE_total (by simpa using hpw) hpair
        simpa using this
      rw [← hsplit] at hsubs
      rcases List.sublist_append_iff.mp hsubs with ⟨l₁, l₂, heq2, hsub1, hsub2⟩
      rcases l₁ with _ | ⟨x, l₁⟩
      · simp only [List.nil_append] at heq2
        subst heq2
        have : h.get ⟨i, hi⟩ ∈ s.drop m := hsub2.subset (by simp)
        exact hdisj (List.mem_map_of_mem Prod.fst hpt) (List.mem_map_of_mem Prod.fst this)
      · rcases l₁ with _ | ⟨y, l₁⟩
        · simp only [List.cons_append, List.nil_append, List.cons.injEq] at heq2
          obtain ⟨rfl, -⟩ := heq2
          have : h.get ⟨j, hj⟩ ∈ s.take m := hsub1.subset (by simp)
          exact hdisj (List.mem_map_of_mem Prod.fst this) (List.mem_map_of_mem Prod.fst hqd)
        · simp only [List.cons_append, List.cons.injEq] at heq2
          obtain ⟨rfl, rfl, -⟩ := heq2
          have : h.get ⟨j, hj⟩ ∈ s.take m := hsub1.subset (by simp)
          exact hdisj (List.mem_map_of_mem Prod.fst this) (List.mem_map_of_mem Prod.fst hqd)

/-- C1 witness: the retention invariant applied to a concrete two-entry
store. -/
theorem cleanup_history_retention_instance :
    (([("k1", [("upload_time", Value.intV 5)]),
       ("k2", [("upload_time", Value.intV 3)])] : HistoryStore).all
        fun p => wfEntry p.2) = true ∧
    (([("k1", [("upload_time", Value.intV 5)]),
       ("k2", [("upload_time", Value.intV 3)])] : HistoryStore).map Prod.fst).Nodup ∧
    (cleanup_history [("k1", [("upload_time", Value.intV 5)]),
       ("k2", [("upload_time", Value.intV 3)])]).length
      = min ([("k1", [("upload_time", Value.intV 5)]),
       ("k2", [("upload_time", Value.intV 3)])] : HistoryStore).length 1000 :=
  ⟨by decide, by decide,
    (cleanup_history_retention [("k1", [("upload_time", Value.intV 5)]),
       ("k2", [("upload_time", Value.intV 3)])] (by decide) (by decide)).1⟩

/-- C2 counterexample: the claimed per-key mapping rule fails on a raw
record that itself contains a key named `upload_time` (whose lowercase
is neither `time` nor `timestamp`): the claim says its text value `"x"`
survives as text, but `clean_data_record` overwrites it with the
injected integer-millisecond value. -/
theorem clean_data_record_upload_time_collision :
    isTimeKey "upload_time" = false ∧
    getVal (clean_data_record [("upload_time", Value.strV "x")] "i" 5) "upload_time"
      = some (Value.intV 5) ∧
    getVal (clean_data_record [("upload_time", Value.strV "x")] "i" 5) "upload_time"
      ≠ some (Value.strV "x") := by
  refine ⟨by decide, by decide, by decide⟩

/-- C2 (amended): normalization never fails; the output carries the
injected `timestamp` (ISO clock string) and `upload_time` (integer
milliseconds), contains no missing/NaN value, contains no key whose
lowercased name is `time` or `timestamp` other than the injected
`timestamp` field itself, and every raw key that is not time-like and is
not the literal key `upload_time` (which the injection overwrites) maps
to `0.0` if its value is missing/NaN, to its floating-point value if
numeric, and to its text form otherwise (`cleanValue`). -/
theorem clean_data_record_contract (record : Record) (isoNow : String) (millisNow : Int) :
    getVal (clean_data_record record isoNow millisNow) "timestamp" = some (.strV isoNow) ∧
    getVal (clean_data_record record isoNow millisNow) "upload_time" = some (.intV millisNow) ∧
    (∀ p ∈ clean_data_record record isoNow millisNow, p.2 ≠ Value.nan) ∧
    (∀ k, isTimeKey k = true → k ≠ "timestamp" →
      getVal (clean_data_record record isoNow millisNow) k = none) ∧
    (∀ k v, getVal record k = some v → isTimeKey k = false → k ≠ "upload_time" →
      getVal (clean_data_record record isoNow millisNow) k = some (cleanValue v)) := by
  refine ⟨?_, ?_, ?_, ?_, ?_⟩
  · rw [clean_data_record, getVal_setKey_ne _ _ _ _ (by decide), getVal_setKey_self]
  · rw [clean_data_record, getVal_setKey_self]
  · intro p hp
    rw [clean_data_record] at hp
    rcases mem_setKey _ _ _ _ hp with h | hp
    · simp [h]
    rcases mem_setKey _ _ _ _ hp with h | hp
    · simp [h]
    · obtain ⟨w, hw⟩ := mem_cleanBase_value record p hp
      rw [hw]
      exact cleanValue_ne_nan w
  · intro k hk hkts
    have hkut : k ≠ "upload_time" := by
      intro h
      rw [h] at hk
      exact absurd hk (by decide)
    rw [getVal_clean_of_ne _ _ _ _ hkts hkut, getVal_eq_none_iff]
    intro p hp hpk
    have := mem_cleanBase_not_time record p hp
    rw [hpk, hk] at this
    exact absurd this (by decide)
  · intro k v hget htime hkut
    have hkts : k ≠ "timestamp" := by
      intro h
      rw [h] at htime
      exact absurd htime (by decide)
    rw [getVal_clean_of_ne _ _ _ _ hkts hkut]
    exact getVal_cleanBase_some record k v hget htime

/-- C2 witness: the contract instantiated on a concrete raw record with
a NaN field. -/
theorem clean_data_record_contract_instance :
    getVal [("Time", Value.strV "t0"), ("A", Value.nan)] "A" = some Value.nan ∧
    isTimeKey "A" = false ∧
    "A" ≠ "upload_time" ∧
    getVal (clean_data_record [("Time", Value.strV "t0"), ("A", Value.nan)] "iso" 7) "A"
      = some (cleanValue Value.nan) :=
  ⟨by decide, by decide, by decide,
    (clean_data_record_contract [("Time", Value.strV "t0"), ("A", Value.nan)] "iso" 7).2.2.2.2
      "A" Value.nan (by decide) (by decide) (by decide)⟩

/-- C5: normalization is idempotent away from the injected fields —
re-normalizing an already-normalized record leaves every key other than
`timestamp` and `upload_time` bound to the same value (and introduces or
removes no other key). -/
theorem clean_data_record_idempotent (record : Record) (isoNow isoNow₂ : String)
    (millisNow millisNow₂ : Int) (k : String)
    (hts : k ≠ "timestamp") (hut : k ≠ "upload_time") :
    getVal (clean_data_record (clean_data_record record isoNow millisNow) isoNow₂ millisNow₂) k
      = getVal (clean_data_record record isoNow millisNow) k := by
  rw [getVal_clean_of_ne _ _ _ _ hts hut]
  rcases hv : getVal (clean_data_record record isoNow millisNow) k with _ | v
  · exact getVal_cleanBase_none _ _ hv
  · have hr : getVal (clean_data_record record isoNow millisNow) k
        = getVal (cleanBase record) k := getVal_clean_of_ne _ _ _ _ hts hut
    obtain ⟨htk, w, hw, hveq⟩ := getVal_cleanBase_inv record k v (hr ▸ hv)
    rw [getVal_cleanBase_some _ _ _ hv htk, hveq, cleanValue_idem]

/-- C5 witness: idempotence instantiated on a concrete normalized
record at the key `A`. -/
theorem clean_data_record_idempotent_instance :
    "A" ≠ "timestamp" ∧ "A" ≠ "upload_time" ∧
    getVal (clean_data_record (clean_data_record [("A", Value.intV 3)] "a" 1) "b" 2) "A"
      = getVal (clean_data_record [("A", Value.intV 3)] "a" 1) "A" :=
  ⟨by decide, by decide,
    clean_data_record_idempotent [("A", Value.intV 3)] "a" "b" 1 2 "A" (by decide) (by decide)⟩

/-- Per-call environment for one pass through the upload path: the two
clock readings of `clean_data_record`, the push key Firebase assigns,
the clock reading of `update_metadata`, and fault flags saying which
store calls raise an exception (modelling network/store failures). -/
structure TickEnv where
  isoNow : String
  millisNow : Int
  pushKey : String
  isoMeta : String
  setCurrentFail : Bool
  pushFail : Bool
  cleanupFault : Option Nat
  metadataFail : Bool
deriving DecidableEq

/-- The remote store: `cement_plant_data/current`, `.../history`, and
`.../metadata`. -/
structure StoreState where
  current : Option Record
  history : HistoryStore
  metadata : Option Record
deriving DecidableEq

/-- `cleanup_history` as it runs under its own `try`/`except`: with
`fault = none` no exception occurs and the full trim of
`cleanup_history` is applied; with `fault = some d` an exception is
raised after `d` deletions succeeded (a failing `get()` is `some 0`),
is caught and logged, and the partial deletion stands. -/
def cleanup_history_run (fault : Option Nat) (h : HistoryStore) : HistoryStore :=
  if h.length > 1000 then
    match fault with
    | none => deleteKeys h (keys_to_delete h)
    | some d => deleteKeys h ((keys_to_delete h).take d)
  else h

/-- The `try` body of `upload_current_data` (lines 111-127): overwrite
the current snapshot, push the record onto history, run retention.  An
`Except.error` carries the store as mutated up to the raise point
(remote mutations are not rolled back). -/
def upload_current_data_body (env : TickEnv) (st : StoreState) (rec : Record) :
    Except StoreState StoreState :=
  if env.setCurrentFail then .error st
  else
    let st1 : StoreState := { st with current := some rec }
    if env.pushFail then .error st1
    else
      let st2 : StoreState := { st1 with history := st1.history ++ [(env.pushKey, rec)] }
      .ok { st2 with history := cleanup_history_run env.cleanupFault st2.history }

/-- `upload_current_data`: the body with its `except Exception` handler;
a raised exception is logged and swallowed, keeping whatever mutations
had already happened. -/
def upload_current_data (env : TickEnv) (st : StoreState) (rec : Record) : StoreState :=
  match upload_current_data_body env st rec with
  | .ok st' => st'
  | .error st' => st'

/-- The metadata record written by `update_metadata`
(data-uploader.py lines 198-212). -/
def metadataRecord (isoMeta : String) (currentIndex totalRecords : Nat) : Record :=
  [("last_update", .strV isoMeta),
   ("current_index", .intV currentIndex),
   ("total_records", .intV totalRecords),
   ("update_interval_seconds", .intV 5),
   ("status", .strV "active")]

/-- `update_metadata`: overwrite `cement_plant_data/metadata`; a failure
is caught and logged, leaving the store unchanged. -/
def update_metadata (env : TickEnv) (currentIndex totalRecords : Nat) (st : StoreState) :
    StoreState :=
  if env.metadataFail then st
  else { st with metadata := some (metadataRecord env.isoMeta currentIndex totalRecords) }

/-- Scheduler state: `self.current_index` together with the remote
store. -/
structure SysState where
  currentIndex : Nat
  store : StoreState
deriving DecidableEq

/-- The work of one tick at record offset `i`: select the record,
normalize it, upload it (current + history + retention), publish
metadata with the pre-increment index.  `none` models an unhandled
`IndexError` from `self.data_records[i]` (possible only for an empty
record list), which the loop's outer handler re-raises. -/
def tick_work (records : List Record) (env : TickEnv) (i : Nat) (st : StoreState) :
    Option StoreState :=
  match records[i]? with
  | none => none
  | some raw =>
    some (update_metadata env i records.length
      (upload_current_data env st (clean_data_record raw env.isoNow env.millisNow)))

/-- The outcome of one iteration of the `while True` loop of
`simulate_real_time_streaming` (lines 164-191): another tick happened
(`next`, carrying the record offset that was uploaded), the loop broke
out (`finished`), or an unhandled exception propagated (`crashed`). -/
inductive IterResult where
  | next (s : SysState) (uploaded : Nat)
  | finished (s : SysState)
  | crashed
deriving DecidableEq

/-- One loop iteration: at the end of the data either wrap
(`current_index = 0`, then tick at offset 0) or break; otherwise tick at
`current_index` and increment it. -/
def stream_iter (records : List Record) (loop_data : Bool) (env : TickEnv)
    (s : SysState) : IterResult :=
  if s.currentIndex ≥ records.length then
    if loop_data then
      match tick_work records env 0 s.store with
      | none => .crashed
      | some st' => .next ⟨1, st'⟩ 0
    else .finished s
  else
    match tick_work records env s.currentIndex s.store with
    | none => .crashed
    | some st' => .next ⟨s.currentIndex + 1, st'⟩ s.currentIndex

/-- A run of the replay loop: still running, done (`break` reached —
the Completed state), or crashed; `ups` lists the record offsets
uploaded so far, in order. -/
inductive RunResult where
  | running (s : SysState) (ups : List Nat)
  | done (s : SysState) (ups : List Nat)
  | crash (ups : List Nat)
deriving DecidableEq

/-- The effect of one more loop iteration on a run outcome: while the
loop is still running, perform the next iteration; once it has returned
(`done` or `crash`) nothing more happens. -/
def stepRun (records : List Record) (loop_data : Bool) (env : TickEnv) :
    RunResult → RunResult
  | .running s ups =>
    match stream_iter records loop_data env s with
    | .next s' u => .running s' (ups ++ [u])
    | .finished s' => .done s' ups
    | .crashed => .crash ups
  | .done s ups => .done s ups
  | .crash ups => .crash ups

/-- `simulate_real_time_streaming` run for `t` loop iterations from
`s₀`, with per-iteration environments `envs` (the 5-second sleep does
not affect state and is dropped).  Once `done` or `crash`, later
"iterations" change nothing: the Python function has returned. -/
def run_stream (records : List Record) (loop_data : Bool) (envs : Nat → TickEnv)
    (s₀ : SysState) : Nat → RunResult
  | 0 => .running s₀ []
  | t + 1 => stepRun records loop_data (envs t) (run_stream records loop_data envs s₀ t)

/-- The store mutations of one tick at record offset `i` (everything
`tick_work` does when the offset is in range). -/
def tickStore (records : List Record) (env : TickEnv) (i : Nat) (st : StoreState) :
    StoreState :=
  update_metadata env i records.length
    (upload_current_data env st (clean_data_record (records.getD i []) env.isoNow env.millisNow))

/-- The store contents after `t` ticks of a looping run from `st0`
(tick `t+1` uploads the record at offset `t % N`). -/
def loopStore (records : List Record) (envs : Nat → TickEnv) (st0 : StoreState) :
    Nat → StoreState
  | 0 => st0
  | t + 1 => tickStore records (envs t) (t % records.length) (loopStore records envs st0 t)

/-- The scheduler's `current_index` in a run outcome (`none` after a
crash). -/
def runIndex : RunResult → Option Nat
  | .running s _ => some s.currentIndex
  | .done s _ => some s.currentIndex
  | .crash _ => none

/-- The offsets uploaded so far. -/
def runUploads : RunResult → List Nat
  | .running _ ups => ups
  | .done _ ups => ups
  | .crash ups => ups

/-- The scheduler state in a run outcome (`none` after a crash). -/
def runState : RunResult → Option SysState
  | .running s _ => some s
  | .done s _ => some s
  | .crash _ => none

/-- Status code of a run outcome: `0` still running, `1` completed
(`break`), `2` crashed. -/
def runStatus : RunResult → Nat
  | .running _ _ => 0
  | .done _ _ => 1
  | .crash _ => 2

/-- The same environment with every fault flag cleared: how the store
calls would have behaved had they not raised. -/
def stripFaults (e : TickEnv) : TickEnv :=
  ⟨e.isoNow, e.millisNow, e.pushKey, e.isoMeta, false, false, none, false⟩

/-- The control-flow observation of a run: status, current index, and
uploaded offsets — everything except the store contents. -/
def ctrlOf (r : RunResult) : Nat × Option Nat × List Nat :=
  (runStatus r, runIndex r, runUploads r)

/-- `upload_single_record(index)` (lines 214-222): validate the index
against `0 <= index < len(self.data_records)`; in range, normalize the
record and run `upload_current_data`; out of range, log an error and do
nothing.  `update_metadata` is never called and `current_index` is
never touched. -/
def upload_single_record (records : List Record) (env : TickEnv) (s : SysState)
    (index : Int) : SysState :=
  if 0 ≤ index ∧ index < (records.length : Int) then
    let cleaned := clean_data_record (records.getD index.toNat []) env.isoNow env.millisNow
    { s with store := upload_current_data env s.store cleaned }
  else s

/-- A concrete fault-free environment for witnesses. -/
def envC : TickEnv := ⟨"t", 1, "k", "m", false, false, none, false⟩

/-- A concrete one-record data sequence for witnesses. -/
def recs1 : List Record := [[("A", Value.floatV 1)]]

/-- A concrete three-record data sequence for witnesses. -/
def recs3 : List Record :=
  [[("A", Value.floatV 1)], [("A", Value.floatV 2)], [("A", Value.floatV 3)]]

/-- A concrete empty store for witnesses. -/
def st0C : StoreState := ⟨none, [], none⟩

/-- The scheduler's `current_index` as stored after `t` completed loop
iterations of a looping run that started at 0: `0` before the first
tick, and `(t-1) % N + 1` afterwards (the variable is reset to 0 only
at the start of the next iteration, so after a full cycle it holds `N`,
not `0`). -/
def loopIdx (N t : Nat) : Nat := if t = 0 then 0 else (t - 1) % N + 1

theorem succ_mod_of_lt {a N : Nat} (h : a % N + 1 < N) : (a + 1) % N = a % N + 1 := by
  have h1 : 1 % N = 1 := Nat.mod_eq_of_lt (by omega)
  rw [Nat.add_mod, h1, Nat.mod_eq_of_lt h]

theorem succ_mod_of_eq {a N : Nat} (hN : 0 < N) (h : a % N = N - 1) : (a + 1) % N = 0 := by
  have h3 := Nat.div_add_mod a N
  have h2 : a + 1 = N * (a / N) + N := by omega
  rw [h2, Nat.mul_add_mod, Nat.mod_self]

theorem stepRun_next (records : List Record) (loop_data : Bool) (env : TickEnv)
    (s : SysState) (ups : List Nat) (s' : SysState) (u : Nat)
    (h : stream_iter records loop_data env s = .next s' u) :
    stepRun records loop_data env (.running s ups) = .running s' (ups ++ [u]) := by
  simp [stepRun, h]

theorem stepRun_finished (records : List Record) (loop_data : Bool) (env : TickEnv)
    (s : SysState) (ups : List Nat) (s' : SysState)
    (h : stream_iter records loop_data env s = .finished s') :
    stepRun records loop_data env (.running s ups) = .done s' ups := by
  simp [stepRun, h]

theorem stepRun_done (records : List Record) (loop_data : Bool) (env : TickEnv)
    (s : SysState) (ups : List Nat) :
    stepRun records loop_data env (.done s ups) = .done s ups := rfl

theorem getElem?_eq_some_getD (records : List Record) (i : Nat) (h : i < records.length) :
    records[i]? = some (records.getD i []) := by
  simp [List.getD_eq_getElem?_getD, List.getElem?_eq_getElem h]

theorem stream_iter_tick (records : List Record) (loop_data : Bool) (env : TickEnv)
    (s : SysState) (h : s.currentIndex < records.length) :
    stream_iter records loop_data env s
      = .next ⟨s.currentIndex + 1, tickStore records env s.currentIndex s.store⟩
          s.currentIndex := by
  rw [stream_iter, if_neg (by omega), tick_work, getElem?_eq_some_getD records _ h]
  rfl

theorem stream_iter_wrap (records : List Record) (env : TickEnv) (s : SysState)
    (hge : records.length ≤ s.currentIndex) (hN : 0 < records.length) :
    stream_iter records true env s
      = .next ⟨1, tickStore records env 0 s.store⟩ 0 := by
  rw [stream_iter, if_pos (by omega), tick_work, getElem?_eq_some_getD records 0 hN]
  rfl

theorem stream_iter_finish (records : List Record) (env : TickEnv) (s : SysState)
    (hge : records.length ≤ s.currentIndex) :
    stream_iter records false env s = .finished s := by
  rw [stream_iter, if_pos (by omega)]
  rfl

theorem map_range_succ (f : Nat → Nat) (n : Nat) :
    (List.range (n + 1)).map f = (List.range n).map f ++ [f n] := by
  rw [List.range_succ, List.map_append]
  rfl

theorem run_stream_loop_spec (records : List Record) (envs : Nat → TickEnv)
    (st0 : StoreState) (hN : 0 < records.length) (t : Nat) :
    run_stream records true envs ⟨0, st0⟩ t
      = .running ⟨loopIdx records.length t, loopStore records envs st0 t⟩
          ((List.range t).map fun u => u % records.length) := by
  induction t with
  | zero => rfl
  | succ t ih =>
    rw [run_stream, ih, map_range_succ]
    rcases t with _ | t'
    · have htick := stream_iter_tick records true (envs 0)
        ⟨loopIdx records.length 0, loopStore records envs st0 0⟩ (by simpa [loopIdx] using hN)
      rw [stepRun_next _ _ _ _ _ _ _ htick]
      simp [loopIdx, loopStore, Nat.zero_mod]
    · have hidx : loopIdx records.length (t' + 1) = t' % records.length + 1 := by
        simp [loopIdx]
      by_cases hwrap : records.length ≤ loopIdx records.length (t' + 1)
      · have hmod : t' % records.length = records.length - 1 := by
          have := Nat.mod_lt t' hN
          omega
        have ht1 : (t' + 1) % records.length = 0 := succ_mod_of_eq hN hmod
        have hiter := stream_iter_wrap records (envs (t' + 1))
          ⟨loopIdx records.length (t' + 1), loopStore records envs st0 (t' + 1)⟩ hwrap hN
        rw [stepRun_next _ _ _ _ _ _ _ hiter]
        simp [loopIdx, loopStore, ht1]
      · have hlt : loopIdx records.length (t' + 1) < records.length := by omega
        have hlt' : t' % records.length + 1 < records.length := by omega
        have ht1 : (t' + 1) % records.length = t' % records.length + 1 :=
          succ_mod_of_lt hlt'
        have hiter := stream_iter_tick records true (envs (t' + 1))
          ⟨loopIdx records.length (t' + 1), loopStore records envs st0 (t' + 1)⟩ hlt
        rw [stepRun_next _ _ _ _ _ _ _ hiter]
        simp [loopIdx, loopStore, ht1]

/-- C3 counterexample: with `N = 1` and looping enabled, after exactly
`1 * N = 1` tick the stored `current_index` is `1`, not `0` — the claim
that `current_index` equals 0 after every multiple of `N` ticks fails,
because the variable is reset to 0 only at the start of the next
iteration, after which it immediately advances. -/
theorem scheduler_looping_claim_fails :
    runIndex (run_stream recs1 true (fun _ => envC) ⟨0, st0C⟩ (1 * recs1.length))
      ≠ some 0 := by
  decide

/-- C3 (amended): with `N > 0` records and looping enabled, after `t`
completed ticks the stored `current_index` is `0` for `t = 0` and
`(t-1) % N + 1` otherwise; hence after `k*N + r` ticks with `0 < r < N`
it equals `r`, while after `k*N` ticks (`k ≥ 1`) it equals `N` and is
reset to 0 only at the start of the next tick.  The `t`-th tick uploads
the record at offset `(t-1) % N`: the uploaded-offset trace after `t`
ticks is `[0 % N, 1 % N, …, (t-1) % N]`. -/
theorem scheduler_looping_index (records : List Record) (envs : Nat → TickEnv)
    (st0 : StoreState) (hN : 0 < records.length) (t : Nat) :
    runIndex (run_stream records true envs ⟨0, st0⟩ t)
      = some (loopIdx records.length t) ∧
    runUploads (run_stream records true envs ⟨0, st0⟩ t)
      = (List.range t).map (fun u => u % records.length) := by
  rw [run_stream_loop_spec records envs st0 hN t]
  exact ⟨rfl, rfl⟩

/-- C3 witness: the amended index formula applied to a concrete
one-record sequence after 3 ticks. -/
theorem scheduler_looping_index_instance :
    0 < recs1.length ∧
    runIndex (run_stream recs1 true (fun _ => envC) ⟨0, st0C⟩ 3)
      = some (loopIdx recs1.length 3) :=
  ⟨by decide, (scheduler_looping_index recs1 (fun _ => envC) st0C (by decide) 3).1⟩

/-- The store contents after `t` ticks of a non-looping run from `st0`
(tick `t+1` uploads the record at offset `t`). -/
def seqStore (records : List Record) (envs : Nat → TickEnv) (st0 : StoreState) :
    Nat → StoreState
  | 0 => st0
  | t + 1 => tickStore records (envs t) t (seqStore records envs st0 t)

theorem run_stream_nonloop_spec (records : List Record) (envs : Nat → TickEnv)
    (st0 : StoreState) (t : Nat) :
    t ≤ records.length →
      run_stream records false envs ⟨0, st0⟩ t
        = .running ⟨t, seqStore records envs st0 t⟩ (List.range t) := by
  induction t with
  | zero => intro _; rfl
  | succ t ih =>
    intro ht
    have hlt : (⟨t, seqStore records envs st0 t⟩ : SysState).currentIndex < records.length := by
      show t < records.length
      omega
    rw [run_stream, ih (by omega),
      stepRun_next _ _ _ _ _ _ _ (stream_iter_tick records false (envs t) _ hlt)]
    simp [seqStore, List.range_succ]

theorem run_stream_nonloop_done (records : List Record) (envs : Nat → TickEnv)
    (st0 : StoreState) (t : Nat) :
    records.length < t →
      run_stream records false envs ⟨0, st0⟩ t
        = .done ⟨records.length, seqStore records envs st0 records.length⟩
            (List.range records.length) := by
  induction t with
  | zero => intro ht; exact absurd ht (by omega)
  | succ t ih =>
    intro ht
    by_cases heq : t = records.length
    · have hge : (⟨t, seqStore records envs st0 t⟩ : SysState).currentIndex ≥ records.length := by
        show records.length ≤ t
        omega
      rw [run_stream, run_stream_nonloop_spec records envs st0 t (by omega),
        stepRun_finished _ _ _ _ _ _ (stream_iter_finish records (envs t) _ hge), heq]
    · rw [run_stream, ih (by omega), stepRun_done]

/-- C4: with looping disabled, the replay loop performs exactly `N`
ticks — uploading record offsets `0, 1, …, N-1` once each, in order —
and the iteration after the `N`-th tick breaks out into the Completed
state; every later point in time shows the identical completed outcome,
so no tick occurs after the `N`-th. -/
theorem scheduler_nonlooping_termination (records : List Record) (envs : Nat → TickEnv)
    (st0 : StoreState) (t : Nat) :
    (t ≤ records.length →
      runStatus (run_stream records false envs ⟨0, st0⟩ t) = 0 ∧
      runIndex (run_stream records false envs ⟨0, st0⟩ t) = some t ∧
      runUploads (run_stream records false envs ⟨0, st0⟩ t) = List.range t) ∧
    (records.length < t →
      runStatus (run_stream records false envs ⟨0, st0⟩ t) = 1 ∧
      runUploads (run_stream records false envs ⟨0, st0⟩ t) = List.range records.length ∧
      run_stream records false envs ⟨0, st0⟩ t
        = run_stream records false envs ⟨0, st0⟩ (records.length + 1)) := by
  constructor
  · intro ht
    rw [run_stream_nonloop_spec records envs st0 t ht]
    exact ⟨rfl, rfl, rfl⟩
  · intro ht
    rw [run_stream_nonloop_done records envs st0 t ht,
      run_stream_nonloop_done records envs st0 (records.length + 1) (by omega)]
    exact ⟨rfl, rfl, rfl⟩

/-- C4 witness: the completed outcome on a concrete one-record sequence
after 2 loop iterations. -/
theorem scheduler_nonlooping_termination_instance :
    recs1.length < 2 ∧
    runStatus (run_stream recs1 false (fun _ => envC) ⟨0, st0C⟩ 2) = 1 :=
  ⟨by decide,
    ((scheduler_nonlooping_termination recs1 (fun _ => envC) st0C 2).2 (by decide)).1⟩

theorem stream_iter_crash_empty (records : List Record) (env : TickEnv) (s : SysState)
    (h0 : records.length = 0) :
    stream_iter records true env s = .crashed := by
  have hge : s.currentIndex ≥ records.length := by omega
  have hnone : records[0]? = none := List.getElem?_eq_none (by omega)
  rw [stream_iter, if_pos (by omega), tick_work, hnone]
  rfl

theorem stepRun_crashed (records : List Record) (loop_data : Bool) (env : TickEnv)
    (s : SysState) (ups : List Nat)
    (h : stream_iter records loop_data env s = .crashed) :
    stepRun records loop_data env (.running s ups) = .crash ups := by
  simp [stepRun, h]

theorem stepRun_crash (records : List Record) (loop_data : Bool) (env : TickEnv)
    (ups : List Nat) :
    stepRun records loop_data env (.crash ups) = .crash ups := rfl

theorem stepRun_ctrl (records : List Record) (loop_data : Bool) (e e' : TickEnv)
    (s s' : SysState) (ups : List Nat) (hidx : s.currentIndex = s'.currentIndex) :
    ctrlOf (stepRun records loop_data e (.running s ups))
      = ctrlOf (stepRun records loop_data e' (.running s' ups)) := by
  by_cases hge : records.length ≤ s.currentIndex
  · have hge' : records.length ≤ s'.currentIndex := hidx ▸ hge
    cases loop_data with
    | false =>
      rw [stepRun_finished _ _ _ _ _ _ (stream_iter_finish records e s hge),
        stepRun_finished _ _ _ _ _ _ (stream_iter_finish records e' s' hge')]
      simp [ctrlOf, runStatus, runIndex, runUploads, hidx]
    | true =>
      by_cases h0 : records.length = 0
      · rw [stepRun_crashed _ _ _ _ _ (stream_iter_crash_empty records e s h0),
          stepRun_crashed _ _ _ _ _ (stream_iter_crash_empty records e' s' h0)]
      · have hN : 0 < records.length := by omega
        rw [stepRun_next _ _ _ _ _ _ _ (stream_iter_wrap records e s hge hN),
          stepRun_next _ _ _ _ _ _ _ (stream_iter_wrap records e' s' hge' hN)]
        simp [ctrlOf, runStatus, runIndex, runUploads]
  · have hlt : s.currentIndex < records.length := by omega
    have hlt' : s'.currentIndex < records.length := hidx ▸ hlt
    rw [stepRun_next _ _ _ _ _ _ _ (stream_iter_tick records loop_data e s hlt),
      stepRun_next _ _ _ _ _ _ _ (stream_iter_tick records loop_data e' s' hlt')]
    simp [ctrlOf, runStatus, runIndex, runUploads, hidx]

theorem run_stream_ctrl_faults (records : List Record) (loop_data : Bool)
    (envs : Nat → TickEnv) (s0 : SysState) (t : Nat) :
    ctrlOf (run_stream records loop_data envs s0 t)
      = ctrlOf (run_stream records loop_data (fun i => stripFaults (envs i)) s0 t) := by
  induction t with
  | zero => rfl
  | succ t ih =>
    rw [run_stream, run_stream]
    rcases h1 : run_stream records loop_data envs s0 t with ⟨s, ups⟩ | ⟨s, ups⟩ | ups <;>
      rcases h2 : run_stream records loop_data (fun i => stripFaults (envs i)) s0 t with
        ⟨s', ups'⟩ | ⟨s', ups'⟩ | ups' <;>
      rw [h1, h2] at ih <;>
      simp [ctrlOf, runStatus, runIndex, runUploads] at ih
    · obtain ⟨hidx, hups⟩ := ih
      rw [← hups]
      exact stepRun_ctrl records loop_data (envs t) (stripFaults (envs t)) s s' ups hidx
    · obtain ⟨hidx, hups⟩ := ih
      rw [stepRun_done, stepRun_done]
      simp [ctrlOf, runStatus, runIndex, runUploads, hidx, hups]
    · rw [stepRun_crash, stepRun_crash]
      simp [ctrlOf, runStatus, runIndex, runUploads, ih]

theorem run_stream_no_crash (records : List Record) (loop_data : Bool)
    (envs : Nat → TickEnv) (s0 : SysState) (t : Nat)
    (hsafe : loop_data = false ∨ 0 < records.length) :
    runStatus (run_stream records loop_data envs s0 t) ≠ 2 := by
  induction t with
  | zero => simp [run_stream, runStatus]
  | succ t ih =>
    rw [run_stream]
    rcases h1 : run_stream records loop_data envs s0 t with ⟨s, ups⟩ | ⟨s, ups⟩ | ups
    · by_cases hge : records.length ≤ s.currentIndex
      · cases loop_data with
        | false =>
          rw [stepRun_finished _ _ _ _ _ _ (stream_iter_finish records (envs t) s hge)]
          simp [runStatus]
        | true =>
          have hN : 0 < records.length := by
            rcases hsafe with hl | hN
            · exact absurd hl (by simp)
            · exact hN
          rw [stepRun_next _ _ _ _ _ _ _ (stream_iter_wrap records (envs t) s hge hN)]
          simp [runStatus]
      · have hlt : s.currentIndex < records.length := by omega
        rw [stepRun_next _ _ _ _ _ _ _ (stream_iter_tick records loop_data (envs t) s hlt)]
        simp [runStatus]
    · rw [stepRun_done]
      simp [runStatus]
    · rw [h1] at ih
      exact absurd rfl ih

/-- C8: per-tick failures are isolated.  Whatever store faults occur
(snapshot write, history push, retention read/delete, metadata publish
— all caught by the `try`/`except` blocks), the replay loop's control
flow is identical to the fault-free run: same status, same
`current_index`, same uploaded-offset trace, tick after tick.  Moreover
the loop never crashes (status 2) whenever looping is off or the record
list is non-empty — store failures never propagate out of a tick. -/
theorem per_tick_failure_isolation (records : List Record) (loop_data : Bool)
    (envs : Nat → TickEnv) (s0 : SysState) (t : Nat) :
    ctrlOf (run_stream records loop_data envs s0 t)
      = ctrlOf (run_stream records loop_data (fun i => stripFaults (envs i)) s0 t) ∧
    ((loop_data = false ∨ 0 < records.length) →
      runStatus (run_stream records loop_data envs s0 t) ≠ 2) :=
  ⟨run_stream_ctrl_faults records loop_data envs s0 t,
    fun hsafe => run_stream_no_crash records loop_data envs s0 t hsafe⟩

/-- A concrete all-faults environment for the C8 witness. -/
def envFault : TickEnv := ⟨"t", 1, "k", "m", true, true, some 0, true⟩

/-- C8 witness: a fully faulty 2-iteration looping run on a concrete
one-record sequence still does not crash. -/
theorem per_tick_failure_isolation_instance :
    ((false = false ∨ 0 < recs1.length) ∧
      runStatus (run_stream recs1 true (fun _ => envFault) ⟨0, st0C⟩ 2) ≠ 2) :=
  ⟨Or.inr (by decide),
    (per_tick_failure_isolation recs1 true (fun _ => envFault) ⟨0, st0C⟩ 2).2
      (Or.inr (by decide))⟩

/-- The status invariant of the metadata channel: whatever metadata
record has been published carries `status = 'active'`. -/
def metadataActive (st : StoreState) : Prop :=
  ∀ r, st.metadata = some r → getVal r "status" = some (.strV "active")

theorem getVal_metadataRecord_status (isoMeta : String) (i N : Nat) :
    getVal (metadataRecord isoMeta i N) "status" = some (.strV "active") := rfl

theorem upload_current_data_metadata (env : TickEnv) (st : StoreState) (rec : Record) :
    (upload_current_data env st rec).metadata = st.metadata := by
  rw [upload_current_data, upload_current_data_body]
  by_cases h1 : env.setCurrentFail <;> by_cases h2 : env.pushFail <;> simp [h1, h2]

theorem update_metadata_active (env : TickEnv) (i N : Nat) (st : StoreState)
    (h : metadataActive st) : metadataActive (update_metadata env i N st) := by
  intro r hr
  rw [update_metadata] at hr
  by_cases hf : env.metadataFail
  · rw [if_pos hf] at hr
    exact h r hr
  · rw [if_neg hf] at hr
    have heq : metadataRecord env.isoMeta i N = r := by simpa using hr
    rw [← heq]
    exact getVal_metadataRecord_status env.isoMeta i N

theorem metadataActive_tickStore (records : List Record) (env : TickEnv) (i : Nat)
    (st : StoreState) (h : metadataActive st) :
    metadataActive (tickStore records env i st) := by
  rw [tickStore]
  apply update_metadata_active
  intro r hr
  rw [upload_current_data_metadata] at hr
  exact h r hr

theorem stream_iter_next_store (records : List Record) (loop_data : Bool) (env : TickEnv)
    (s s' : SysState) (u : Nat)
    (h : stream_iter records loop_data env s = .next s' u) :
    s'.store = tickStore records env u s.store := by
  by_cases hge : records.length ≤ s.currentIndex
  · cases loop_data with
    | false =>
      rw [stream_iter_finish records env s hge] at h
      cases h
    | true =>
      by_cases h0 : records.length = 0
      · rw [stream_iter_crash_empty records env s h0] at h
        cases h
      · rw [stream_iter_wrap records env s hge (by omega)] at h
        cases h
        rfl
  · rw [stream_iter_tick records loop_data env s (by omega)] at h
    cases h
    rfl

theorem run_stream_metadata_active (records : List Record) (loop_data : Bool)
    (envs : Nat → TickEnv) (s0 : SysState) (t : Nat) (h0 : metadataActive s0.store) :
    ∀ s, runState (run_stream records loop_data envs s0 t) = some s →
      metadataActive s.store := by
  induction t with
  | zero =>
    intro s hs
    have : s0 = s := by simpa [run_stream, runState] using hs
    exact this ▸ h0
  | succ t ih =>
    intro s hs
    rw [run_stream] at hs
    rcases h1 : run_stream records loop_data envs s0 t with ⟨s1, ups⟩ | ⟨s1, ups⟩ | ups <;>
      rw [h1] at hs
    · have hact : metadataActive s1.store := ih s1 (by rw [h1]; rfl)
      rcases h2 : stream_iter records loop_data (envs t) s1 with ⟨s2, u⟩ | s2 | _
      · rw [stepRun_next _ _ _ _ _ _ _ h2] at hs
        have : s2 = s := by simpa [runState] using hs
        rw [← this, stream_iter_next_store records loop_data (envs t) s1 s2 u h2]
        exact metadataActive_tickStore records (envs t) u s1.store hact
      · rw [stepRun_finished _ _ _ _ _ _ h2] at hs
        have : s2 = s := by simpa [runState] using hs
        have hs2 : s2.store = s1.store := by
          rw [stream_iter] at h2
          by_cases hge : s1.currentIndex ≥ records.length
          · rw [if_pos hge] at h2
            cases loop_data with
            | false =>
              have : s1 = s2 := by simpa using h2
              rw [← this]
            | true =>
              rcases h3 : tick_work records (envs t) 0 s1.store with _ | st2 <;>
                rw [h3] at h2 <;> cases h2
          · rw [if_neg hge] at h2
            rcases h3 : tick_work records (envs t) s1.currentIndex s1.store with _ | st2 <;>
              rw [h3] at h2 <;> cases h2
        rw [← this, hs2]
        exact hact
      · rw [stepRun_crashed _ _ _ _ _ h2] at hs
        cases hs
    · rw [stepRun_done] at hs
      have : s1 = s := by simpa [runState] using hs
      exact this ▸ ih s1 (by rw [h1]; rfl)
    · rw [stepRun_crash] at hs
      cases hs

/-- C9 (implicit claim): every metadata record the publisher writes has
`status = 'active'` — `update_metadata` hardcodes it, and no code path
writes `'stopped'`.  Consequently, starting from any store whose
published metadata (if any) says `'active'`, after any number of loop
iterations — looping or not, including after the non-looping run has
completed, and at any boundary where an operator interrupt would stop
the run — the published metadata still says `'active'`: the Completed
and Stopped states are never reflected in the published status. -/
theorem metadata_status_always_active (records : List Record) (loop_data : Bool)
    (envs : Nat → TickEnv) (s0 : SysState) (t : Nat) (isoMeta : String) (i N : Nat)
    (h0 : metadataActive s0.store) :
    getVal (metadataRecord isoMeta i N) "status" = some (.strV "active") ∧
    (∀ s, runState (run_stream records loop_data envs s0 t) = some s →
      metadataActive s.store) :=
  ⟨getVal_metadataRecord_status isoMeta i N,
    run_stream_metadata_active records loop_data envs s0 t h0⟩

/-- C9 witness: instantiated on a concrete 2-iteration looping run from
the empty store. -/
theorem metadata_status_always_active_instance :
    metadataActive st0C ∧
    getVal (metadataRecord "m" 0 1) "status" = some (Value.strV "active") :=
  And.intro (fun _ hr => nomatch hr)
    ((metadata_status_always_active recs1 true (fun _ => envC) ⟨0, st0C⟩ 2 "m" 0 1
      (fun _ hr => nomatch hr)).1)

theorem cleanup_history_run_none (h : HistoryStore) :
    cleanup_history_run none h = cleanup_history h := rfl

theorem upload_current_data_ok (env : TickEnv) (st : StoreState) (rec : Record)
    (h1 : env.setCurrentFail = false) (h2 : env.pushFail = false) :
    upload_current_data env st rec
      = ⟨some rec,
          cleanup_history_run env.cleanupFault (st.history ++ [(env.pushKey, rec)]),
          st.metadata⟩ := by
  rw [upload_current_data, upload_current_data_body]
  simp [h1, h2]

/-- C6: an out-of-range index request to `upload_single_record` (for
example `index = 99` on a 3-record sequence, or any negative index) is
rejected with only a logged error: the current snapshot, the history
store, the metadata record and `current_index` are all left exactly as
they were — no store mutation at all. -/
theorem upload_single_record_invalid (records : List Record) (env : TickEnv)
    (s : SysState) (index : Int)
    (h : ¬(0 ≤ index ∧ index < (records.length : Int))) :
    upload_single_record records env s index = s := by
  rw [upload_single_record, if_neg h]

/-- C6 witness: index 99 against a concrete 3-record sequence. -/
theorem upload_single_record_invalid_instance :
    ¬(0 ≤ (99 : Int) ∧ (99 : Int) < (recs3.length : Int)) ∧
    upload_single_record recs3 envC ⟨0, st0C⟩ 99 = ⟨0, st0C⟩ :=
  ⟨by decide, upload_single_record_invalid recs3 envC ⟨0, st0C⟩ 99 (by decide)⟩

/-- C7: a valid single-record upload normalizes and publishes the
record at the requested offset — the current snapshot becomes the
normalized record and the history gains it, with retention applied —
while `current_index` keeps its prior value and the metadata record is
untouched (StreamState is otherwise unaltered). -/
theorem upload_single_record_valid (records : List Record) (env : TickEnv)
    (s : SysState) (index : Int)
    (h : 0 ≤ index ∧ index < (records.length : Int))
    (h1 : env.setCurrentFail = false) (h2 : env.pushFail = false)
    (h3 : env.cleanupFault = none) :
    (upload_single_record records env s index).currentIndex = s.currentIndex ∧
    (upload_single_record records env s index).store.metadata = s.store.metadata ∧
    (upload_single_record records env s index).store.current
      = some (clean_data_record (records.getD index.toNat []) env.isoNow env.millisNow) ∧
    (upload_single_record records env s index).store.history
      = cleanup_history (s.store.history
          ++ [(env.pushKey,
                clean_data_record (records.getD index.toNat [])
                  env.isoNow env.millisNow)]) := by
  rw [upload_single_record, if_pos h]
  dsimp only
  rw [upload_current_data_ok env s.store _ h1 h2, h3, cleanup_history_run_none]
  exact ⟨rfl, rfl, rfl, rfl⟩

/-- C7 witness: index 1 against a concrete 3-record sequence with a
fault-free environment. -/
theorem upload_single_record_valid_instance :
    (0 ≤ (1 : Int) ∧ (1 : Int) < (recs3.length : Int)) ∧
    envC.setCurrentFail = false ∧ envC.pushFail = false ∧ envC.cleanupFault = none ∧
    (upload_single_record recs3 envC ⟨7, st0C⟩ 1).currentIndex = (⟨7, st0C⟩ : SysState).currentIndex :=
  ⟨by decide, by decide, by decide, by decide,
    (upload_single_record_valid recs3 envC ⟨7, st0C⟩ 1 (by decide) (by decide) (by decide)
      (by decide)).1⟩

theorem tick_work_of_lt (records : List Record) (env : TickEnv) (i : Nat)
    (st : StoreState) (hlt : i < records.length) :
    tick_work records env i st = some (tickStore records env i st) := by
  rw [tick_work, getElem?_eq_some_getD records i hlt]
  rfl

/-- C10 (implicit claim): for a valid index, `upload_single_record`
performs exactly the store writes of a scheduler tick minus the
metadata publish: it runs the same `upload_current_data` (overwriting
the current snapshot, appending the normalized record to history,
triggering retention — so a 'single' upload can grow the history and
cause deletions of old entries), a tick at the same offset is that same
upload followed by `update_metadata`, and the single upload leaves the
metadata record and `current_index` untouched. -/
theorem upload_single_record_vs_tick (records : List Record) (env : TickEnv)
    (s : SysState) (index : Int)
    (h : 0 ≤ index ∧ index < (records.length : Int)) :
    (upload_single_record records env s index).store
      = upload_current_data env s.store
          (clean_data_record (records.getD index.toNat []) env.isoNow env.millisNow) ∧
    tick_work records env index.toNat s.store
      = some (update_metadata env index.toNat records.length
          ((upload_single_record records env s index).store)) ∧
    (upload_single_record records env s index).store.metadata = s.store.metadata ∧
    (upload_single_record records env s index).currentIndex = s.currentIndex := by
  have hlt : index.toNat < records.length := by omega
  have hstore : (upload_single_record records env s index).store
      = upload_current_data env s.store
          (clean_data_record (records.getD index.toNat []) env.isoNow env.millisNow) := by
    rw [upload_single_record, if_pos h]
  refine ⟨hstore, ?_, ?_, ?_⟩
  · rw [tick_work_of_lt records env index.toNat s.store hlt, hstore, tickStore]
  · rw [hstore, upload_current_data_metadata]
  · rw [upload_single_record, if_pos h]

/-- C10 witness: index 1 against a concrete 3-record sequence. -/
theorem upload_single_record_vs_tick_instance :
    (0 ≤ (1 : Int) ∧ (1 : Int) < (recs3.length : Int)) ∧
    (upload_single_record recs3 envC ⟨0, st0C⟩ 1).store
      = upload_current_data envC st0C
          (clean_data_record (recs3.getD (1 : Int).toNat []) envC.isoNow envC.millisNow) :=
  ⟨by decide,
    (upload_single_record_vs_tick recs3 envC ⟨0, st0C⟩ 1 (by decide)).1⟩

end Cement
